import Mathlib

/-!
Verification of the counting Bloom filter in `counting.go` (package boom).

The filter logic (`Test`, `Add`, `TestAndAdd`, `TestAndRemove`, `Reset`,
constructors, `hashKernel`) is translated from `counting.go`.  The bucket
array (`Buckets`) and the sizing helpers (`OptimalM`, `OptimalK`) live in
other files of the repository and are modelled from the specification's
contract for them.  Go `uint` arithmetic is 64-bit and wraps modulo 2^64;
this is made explicit with `% 2 ^ 64`.
-/

namespace Boom

/-- Modelled from the spec: the `Buckets` bucket array (its source file is not
part of the verified sources; §3/§4.1 of the spec give its contract).  It owns
`m` fixed-width unsigned counters of `bucketWidth` bits each; every counter
value lies in `[0, 2 ^ bucketWidth - 1]`.  We model the packed storage at the
counter level: one natural number per counter. -/
structure Buckets where
  data : List Nat
  bucketWidth : Nat
  deriving DecidableEq, Repr

/-- Modelled from the spec: the largest value a counter can hold,
`2 ^ b - 1` for bucket width `b`. -/
def Buckets.maxVal (bk : Buckets) : Nat := 2 ^ bk.bucketWidth - 1

/-- Modelled from the spec: `NewBuckets` allocates `m` counters, all zero. -/
def NewBuckets (m : Nat) (b : Nat) : Buckets :=
  { data := List.replicate m 0, bucketWidth := b }

/-- Modelled from the spec: `Get(index)` returns the current counter value at
`index` (indices are always reduced modulo `m` by the caller; out-of-range
reads never occur on well-formed states and default to 0 in the model). -/
def Buckets.Get (bk : Buckets) (idx : Nat) : Nat := bk.data.getD idx 0

/-- Modelled from the spec: the clamping applied by `Increment` — results
never exceed `2 ^ b - 1` (saturation at the top) and clamp to 0 on underflow
(the policy the spec recommends). -/
def clampVal (maxVal : Nat) (val : Int) : Nat :=
  if val > (maxVal : Int) then maxVal
  else if val < 0 then 0
  else val.toNat

/-- Modelled from the spec: `Increment(index, delta)` adds `delta` (positive
or negative) to the counter at `index`, with the result clamped into
`[0, 2 ^ b - 1]`. -/
def Buckets.Increment (bk : Buckets) (idx : Nat) (delta : Int) : Buckets :=
  { bk with data := bk.data.set idx (clampVal bk.maxVal ((bk.Get idx : Int) + delta)) }

/-- Modelled from the spec: `Reset()` zeroes every counter. -/
def Buckets.Reset (bk : Buckets) : Buckets :=
  { bk with data := List.replicate bk.data.length 0 }

/-- The FNV-1 64-bit hash, the algorithm behind Go's `fnv.New64()` which the
constructor installs as the filter's hash kernel: starting from the offset
basis, each byte does `h = h * prime mod 2 ^ 64` followed by `h = h xor byte`.
Input bytes are modelled as naturals reduced modulo 256. -/
def fnv64 (data : List Nat) : Nat :=
  data.foldl (fun h byte => ((h * 1099511628211) % 2 ^ 64) ^^^ (byte % 256))
    14695981039346656037

/-- `CountingBloomFilter` from `counting.go`: bucket data, the 64-bit hash
kernel (a `hash.Hash64` field; each `hashKernel` call writes, sums and resets
it, so it acts as a pure digest function), `m` buckets, `k` hash functions,
`b` bits per bucket, the item count (a Go `uint`, kept below `2 ^ 64`), and
the index buffer used by `TestAndRemove`. -/
structure CountingBloomFilter where
  buckets : Buckets
  hash : List Nat → Nat
  m : Nat
  k : Nat
  b : Nat
  count : Nat
  indexBuffer : List Nat

/-- `hashKernel` from `counting.go`: one 64-bit digest per call, split into
the lower 32 bits (`sum[4:8]` big-endian) and the upper 32 bits
(`sum[0:4]`). -/
def hashKernel (c : CountingBloomFilter) (data : List Nat) : Nat × Nat :=
  let sum := c.hash data % 2 ^ 64
  (sum % 2 ^ 32, sum / 2 ^ 32)

/-- The bucket index used in round `i` by every operation:
`(uint(lower)+uint(upper)*i) % m` in 64-bit Go `uint` arithmetic. -/
def bucketIdx (lower upper i m : Nat) : Nat :=
  ((lower + upper * i) % 2 ^ 64) % m

/-- The list of the `k` bucket indices an operation derives for `data`. -/
def indices (c : CountingBloomFilter) (data : List Nat) : List Nat :=
  (List.range c.k).map (fun i => bucketIdx (hashKernel c data).1 (hashKernel c data).2 i c.m)

/-- `Test` from `counting.go`: returns false as soon as one of the `k`
buckets is zero; no filter field is written, so the state component is
returned unchanged. -/
def Test (c : CountingBloomFilter) (data : List Nat) : Bool × CountingBloomFilter :=
  (((List.range c.k).all fun i =>
      !(c.buckets.Get (bucketIdx (hashKernel c data).1 (hashKernel c data).2 i c.m) == 0)),
    c)

/-- `Add` from `counting.go`: increments each of the `k` buckets by 1 and
increments `count` (64-bit `uint` increment). -/
def Add (c : CountingBloomFilter) (data : List Nat) : CountingBloomFilter :=
  { c with
    buckets :=
      (List.range c.k).foldl
        (fun bk i =>
          bk.Increment (bucketIdx (hashKernel c data).1 (hashKernel c data).2 i c.m) 1)
        c.buckets
    count := (c.count + 1) % 2 ^ 64 }

/-- `TestAndAdd` from `counting.go`: for each round, reads the bucket before
incrementing it (within the same loop, so a later round sees earlier rounds'
increments), then increments `count`. -/
def TestAndAdd (c : CountingBloomFilter) (data : List Nat) : Bool × CountingBloomFilter :=
  ((((List.range c.k).foldl
      (fun (acc : Bool × Buckets) i =>
        (acc.1 && !(acc.2.Get (bucketIdx (hashKernel c data).1 (hashKernel c data).2 i c.m) == 0),
          acc.2.Increment (bucketIdx (hashKernel c data).1 (hashKernel c data).2 i c.m) 1))
      (true, c.buckets))).1,
    { c with
      buckets :=
        ((List.range c.k).foldl
          (fun (acc : Bool × Buckets) i =>
            (acc.1 && !(acc.2.Get (bucketIdx (hashKernel c data).1 (hashKernel c data).2 i c.m) == 0),
              acc.2.Increment (bucketIdx (hashKernel c data).1 (hashKernel c data).2 i c.m) 1))
          (true, c.buckets)).2
      count := (c.count + 1) % 2 ^ 64 })

/-- `TestAndRemove` from `counting.go`, first loop: stages the `k` indices in
the index buffer while computing membership against the unmutated buckets
(returns the membership flag and the staged buffer). -/
def TestAndRemoveStage (c : CountingBloomFilter) (data : List Nat) : Bool × List Nat :=
  (List.range c.k).foldl
    (fun (acc : Bool × List Nat) i =>
      (acc.1 && !(c.buckets.Get (bucketIdx (hashKernel c data).1 (hashKernel c data).2 i c.m) == 0),
        acc.2.set i (bucketIdx (hashKernel c data).1 (hashKernel c data).2 i c.m)))
    (true, c.indexBuffer)

/-- `TestAndRemove` from `counting.go`, continued: on membership, decrements
every staged bucket and the count; otherwise mutates nothing but the staged
buffer. -/
def TestAndRemove (c : CountingBloomFilter) (data : List Nat) : Bool × CountingBloomFilter :=
  if (TestAndRemoveStage c data).1 then
    (true,
      { c with
        buckets := (TestAndRemoveStage c data).2.foldl
          (fun bk idx => bk.Increment idx (-1)) c.buckets
        count := (c.count + (2 ^ 64 - 1)) % 2 ^ 64
        indexBuffer := (TestAndRemoveStage c data).2 })
  else
    (false, { c with indexBuffer := (TestAndRemoveStage c data).2 })

/-- `Reset` from `counting.go`: zeroes the buckets and sets `count` to 0. -/
def Reset (c : CountingBloomFilter) : CountingBloomFilter :=
  { c with buckets := c.buckets.Reset, count := 0 }

/-- `Capacity` from `counting.go`. -/
def Capacity (c : CountingBloomFilter) : Nat := c.m

/-- `K` from `counting.go`. -/
def K (c : CountingBloomFilter) : Nat := c.k

/-- `Count` from `counting.go`. -/
def Count (c : CountingBloomFilter) : Nat := c.count

/-- Modelled from the spec: the sizing helper `OptimalM` (its source file is
not part of the verified sources); §4.2 gives `m = ceil(-n·ln(p)/(ln 2)²)`. -/
noncomputable def OptimalM (n : Nat) (fpRate : ℝ) : Nat :=
  ⌈-((n : ℝ) * Real.log fpRate) / (Real.log 2) ^ 2⌉₊

/-- Modelled from the spec: the sizing helper `OptimalK` (its source file is
not part of the verified sources); §4.2 gives `k = max(1, round((m/n)·ln 2))`
where `m/n = -ln(p)/(ln 2)²`, i.e. `k = max(1, round(-ln(p)/ln 2))` (the Go
helper takes only the false-positive rate). -/
noncomputable def OptimalK (fpRate : ℝ) : Nat :=
  max 1 (round (-Real.log fpRate / Real.log 2)).toNat

/-- `NewCountingBloomFilter` from `counting.go`: sizes the filter with the
helpers, installs the FNV-1 64-bit kernel, and allocates the index buffer of
length `k`.  It performs no validation and always returns a filter. -/
noncomputable def NewCountingBloomFilter (n : Nat) (b : Nat) (fpRate : ℝ) :
    CountingBloomFilter :=
  { buckets := NewBuckets (OptimalM n fpRate) b
    hash := fnv64
    m := OptimalM n fpRate
    k := OptimalK fpRate
    b := b
    count := 0
    indexBuffer := List.replicate (OptimalK fpRate) 0 }

/-- `NewDefaultCountingBloomFilter` from `counting.go`: four-bit buckets. -/
noncomputable def NewDefaultCountingBloomFilter (n : Nat) (fpRate : ℝ) :
    CountingBloomFilter :=
  NewCountingBloomFilter n 4 fpRate

/-- Well-formedness of a filter state, as every constructed filter satisfies
(for a positive bucket count): the bucket array has exactly `m` counters, the
index buffer has length `k`, `m` is positive (Go mods by `m`, so `m = 0`
panics), every counter is within its width bound, and `count` is a 64-bit
`uint` value. -/
def WellFormed (c : CountingBloomFilter) : Prop :=
  c.buckets.data.length = c.m ∧ c.indexBuffer.length = c.k ∧ 0 < c.m ∧
    (∀ v ∈ c.buckets.data, v ≤ c.buckets.maxVal) ∧ c.count < 2 ^ 64

instance (c : CountingBloomFilter) : Decidable (WellFormed c) := by
  unfold WellFormed; infer_instance

/-! ### List helpers -/

theorem getD_set_self (l : List Nat) (i v : Nat) (h : i < l.length) :
    (l.set i v).getD i 0 = v := by
  rw [List.getD_eq_getElem _ _ (by simpa using h)]
  exact List.getElem_set_self _

theorem getD_set_ne (l : List Nat) (i j v : Nat) (h : j ≠ i) :
    (l.set i v).getD j 0 = l.getD j 0 := by
  by_cases hj : j < l.length
  · rw [List.getD_eq_getElem _ _ (by simpa using hj), List.getD_eq_getElem _ _ hj]
    exact List.getElem_set_ne (Ne.symm h) _
  · rw [List.getD_eq_default _ _ (by simpa using le_of_not_lt hj),
      List.getD_eq_default _ _ (le_of_not_lt hj)]

theorem allCongr {α : Type} {L : List α} {f g : α → Bool}
    (h : ∀ a ∈ L, f a = g a) : L.all f = L.all g := by
  induction L with
  | nil => rfl
  | cons a t ih =>
    simp only [List.all_cons, h a (by simp)]
    rw [ih fun b hb => h b (by simp [hb])]

/-! ### Bucket lemmas -/

theorem clampVal_le (maxVal : Nat) (val : Int) : clampVal maxVal val ≤ maxVal := by
  unfold clampVal
  split
  · exact le_refl _
  · split
    · exact Nat.zero_le _
    · omega

theorem Buckets.length_increment (bk : Buckets) (idx : Nat) (delta : Int) :
    (bk.Increment idx delta).data.length = bk.data.length := by
  simp [Buckets.Increment]

theorem Buckets.maxVal_increment (bk : Buckets) (idx : Nat) (delta : Int) :
    (bk.Increment idx delta).maxVal = bk.maxVal := rfl

theorem Buckets.get_of_bounds (bk : Buckets)
    (hb : ∀ v ∈ bk.data, v ≤ bk.maxVal) (j : Nat) : bk.Get j ≤ bk.maxVal := by
  unfold Buckets.Get
  by_cases h : j < bk.data.length
  · rw [List.getD_eq_getElem _ _ h]
    exact hb _ (bk.data.getElem_mem h)
  · rw [List.getD_eq_default _ _ (le_of_not_lt h)]
    exact Nat.zero_le _

theorem Buckets.bounds_increment (bk : Buckets) (idx : Nat) (delta : Int)
    (hb : ∀ v ∈ bk.data, v ≤ bk.maxVal) :
    ∀ v ∈ (bk.Increment idx delta).data, v ≤ (bk.Increment idx delta).maxVal := by
  intro v hv
  rcases List.mem_or_eq_of_mem_set hv with h | h
  · exact hb v h
  · subst h
    exact clampVal_le _ _

theorem Buckets.get_increment_ne (bk : Buckets) (idx j : Nat) (delta : Int)
    (h : j ≠ idx) : (bk.Increment idx delta).Get j = bk.Get j :=
  getD_set_ne _ _ _ _ h

theorem Buckets.get_increment_self_of_lt (bk : Buckets) (idx : Nat)
    (hlen : idx < bk.data.length) (hlt : bk.Get idx < bk.maxVal) :
    (bk.Increment idx 1).Get idx = bk.Get idx + 1 := by
  show (bk.data.set idx _).getD idx 0 = _
  rw [getD_set_self _ _ _ hlen]
  unfold clampVal
  rw [if_neg (by omega), if_neg (by omega)]
  omega

theorem Buckets.get_decrement_self (bk : Buckets) (idx : Nat)
    (hlen : idx < bk.data.length) (h1 : 1 ≤ bk.Get idx)
    (hle : bk.Get idx ≤ bk.maxVal) :
    (bk.Increment idx (-1)).Get idx = bk.Get idx - 1 := by
  show (bk.data.set idx _).getD idx 0 = _
  rw [getD_set_self _ _ _ hlen]
  unfold clampVal
  rw [if_neg (by omega), if_neg (by omega)]
  omega

theorem Buckets.get_le_increment_one (bk : Buckets) (idx : Nat)
    (hb : ∀ v ∈ bk.data, v ≤ bk.maxVal) (j : Nat) :
    bk.Get j ≤ (bk.Increment idx 1).Get j := by
  by_cases hj : j = idx
  · subst hj
    by_cases hlen : j < bk.data.length
    · show _ ≤ (bk.data.set j _).getD j 0
      rw [getD_set_self _ _ _ hlen]
      have hle := bk.get_of_bounds hb j
      unfold clampVal
      split
      · exact hle
      · split <;> omega
    · show _ ≤ (bk.data.set j _).getD j 0
      rw [List.set_eq_of_length_le (le_of_not_lt hlen)]
      exact le_refl _
  · rw [bk.get_increment_ne _ _ _ hj]

theorem Buckets.get_increment_one_ne_zero (bk : Buckets) (idx : Nat)
    (hb : ∀ v ∈ bk.data, v ≤ bk.maxVal) (h : bk.Get idx ≠ 0) :
    (bk.Increment idx 1).Get idx ≠ 0 := by
  have := bk.get_le_increment_one idx hb idx
  omega

/-! ### Fold lemmas -/

/-- The bucket array after incrementing (by 1) each index in `L`, in order. -/
def incFold (bk : Buckets) (L : List Nat) : Buckets :=
  L.foldl (fun b i => b.Increment i 1) bk

/-- The bucket array after decrementing (by 1) each index in `L`, in order. -/
def decFold (bk : Buckets) (L : List Nat) : Buckets :=
  L.foldl (fun b i => b.Increment i (-1)) bk

theorem length_incFold (bk : Buckets) (L : List Nat) :
    (incFold bk L).data.length = bk.data.length := by
  induction L generalizing bk with
  | nil => rfl
  | cons a t ih => rw [incFold, List.foldl_cons, ← incFold, ih, Buckets.length_increment]

theorem maxVal_incFold (bk : Buckets) (L : List Nat) :
    (incFold bk L).maxVal = bk.maxVal := by
  induction L generalizing bk with
  | nil => rfl
  | cons a t ih => rw [incFold, List.foldl_cons, ← incFold, ih, Buckets.maxVal_increment]

theorem bounds_incFold (bk : Buckets) (L : List Nat)
    (hb : ∀ v ∈ bk.data, v ≤ bk.maxVal) :
    ∀ v ∈ (incFold bk L).data, v ≤ (incFold bk L).maxVal := by
  induction L generalizing bk with
  | nil => exact hb
  | cons a t ih =>
    rw [incFold, List.foldl_cons, ← incFold]
    exact ih _ (bk.bounds_increment a 1 hb)

theorem get_le_incFold (bk : Buckets) (L : List Nat)
    (hb : ∀ v ∈ bk.data, v ≤ bk.maxVal) (j : Nat) :
    bk.Get j ≤ (incFold bk L).Get j := by
  induction L generalizing bk with
  | nil => exact le_refl _
  | cons a t ih =>
    rw [incFold, List.foldl_cons, ← incFold]
    exact le_trans (bk.get_le_increment_one a hb j) (ih _ (bk.bounds_increment a 1 hb))

theorem get_incFold_count (bk : Buckets) (L : List Nat)
    (hlen : ∀ i ∈ L, i < bk.data.length)
    (hroom : ∀ j ∈ L, bk.Get j + L.count j ≤ bk.maxVal) :
    ∀ j, (incFold bk L).Get j = bk.Get j + L.count j := by
  induction L generalizing bk with
  | nil => intro j; simp [incFold]
  | cons a t ih =>
    intro j
    have ha : a < bk.data.length := hlen a (by simp)
    have haroom := hroom a (by simp)
    have hacount : 1 ≤ (a :: t).count a := by simp [List.count_cons]
    have hget : (bk.Increment a 1).Get a = bk.Get a + 1 :=
      bk.get_increment_self_of_lt a ha (by omega)
    rw [incFold, List.foldl_cons, ← incFold]
    have hlen' : ∀ i ∈ t, i < (bk.Increment a 1).data.length := by
      intro i hi; rw [Buckets.length_increment]; exact hlen i (by simp [hi])
    have hroom' : ∀ j' ∈ t, (bk.Increment a 1).Get j' + t.count j'
        ≤ (bk.Increment a 1).maxVal := by
      intro j' hj'
      rw [Buckets.maxVal_increment]
      by_cases h : j' = a
      · subst h
        rw [hget]
        have := hroom j' (by simp [hj'])
        simp [List.count_cons] at this
        omega
      · rw [bk.get_increment_ne _ _ _ h]
        have := hroom j' (by simp [hj'])
        simp only [List.count_cons] at this
        by_cases hsame : j' = a
        · exact absurd hsame h
        · simp [hsame] at this; omega
    rw [ih _ hlen' hroom' j]
    by_cases h : j = a
    · subst h
      rw [hget]
      simp [List.count_cons]
      omega
    · rw [bk.get_increment_ne _ _ _ h]
      have : (a :: t).count j = t.count j := by
        simp [List.count_cons]
        omega
      omega

theorem get_decFold_count (bk : Buckets) (L : List Nat)
    (hb : ∀ v ∈ bk.data, v ≤ bk.maxVal)
    (hge : ∀ j ∈ L, L.count j ≤ bk.Get j) :
    ∀ j, (decFold bk L).Get j = bk.Get j - L.count j := by
  induction L generalizing bk with
  | nil => intro j; simp [decFold]
  | cons a t ih =>
    intro j
    have hacount : 1 ≤ (a :: t).count a := by simp [List.count_cons]
    have ha1 : 1 ≤ bk.Get a := le_trans hacount (hge a (by simp))
    have halen : a < bk.data.length := by
      by_contra h
      have : bk.Get a = 0 := by
        unfold Buckets.Get
        exact List.getD_eq_default _ _ (le_of_not_lt h)
      omega
    have hget : (bk.Increment a (-1)).Get a = bk.Get a - 1 :=
      bk.get_decrement_self a halen ha1 (bk.get_of_bounds hb a)
    rw [decFold, List.foldl_cons, ← decFold]
    have hb' := bk.bounds_increment a (-1) hb
    have hge' : ∀ j' ∈ t, t.count j' ≤ (bk.Increment a (-1)).Get j' := by
      intro j' hj'
      by_cases h : j' = a
      · subst h
        rw [hget]
        have := hge j' (by simp [hj'])
        simp [List.count_cons] at this
        omega
      · rw [bk.get_increment_ne _ _ _ h]
        have := hge j' (by simp [hj'])
        simp only [List.count_cons] at this
        by_cases hsame : j' = a
        · exact absurd hsame h
        · simp [hsame] at this; omega
    rw [ih _ hb' hge' j]
    by_cases h : j = a
    · subst h
      rw [hget]
      simp [List.count_cons]
      omega
    · rw [bk.get_increment_ne _ _ _ h]
      have : (a :: t).count j = t.count j := by
        simp [List.count_cons]
        omega
      omega

/-- A fold whose boolean component only ands in a per-element predicate and
whose second component evolves independently splits into `all` and a plain
fold. -/
theorem foldl_and_pair {α β : Type} (L : List α) (p : α → Bool) (g : β → α → β)
    (mb : Bool) (s : β) :
    L.foldl (fun acc a => (acc.1 && p a, g acc.2 a)) (mb, s)
      = (mb && L.all p, L.foldl g s) := by
  induction L generalizing mb s with
  | nil => simp
  | cons a t ih =>
    simp only [List.foldl_cons, List.all_cons, ih, Bool.and_assoc]

theorem set_append_cons {α : Type} (A : List α) (x v : α) (rest : List α) :
    (A ++ x :: rest).set A.length v = A ++ v :: rest := by
  induction A with
  | nil => rfl
  | cons a t ih => simp only [List.cons_append, List.length_cons, List.set_cons_succ, ih]

theorem set_append_cons_len {α : Type} (A : List α) (x v : α) (rest : List α)
    (n : Nat) (h : A.length = n) : (A ++ x :: rest).set n v = A ++ v :: rest := by
  subst h
  exact set_append_cons A x v rest

/-- Writing `f i` at position `i` of a buffer for `i = 0, …, n-1` yields the
map of `f` over the range followed by the untouched tail. -/
theorem setfold_range (f : Nat → Nat) :
    ∀ (n : Nat) (buf : List Nat), n ≤ buf.length →
      (List.range n).foldl (fun l i => l.set i (f i)) buf
        = (List.range n).map f ++ buf.drop n := by
  intro n
  induction n with
  | zero => intro buf _; simp
  | succ n ih =>
    intro buf h
    rw [List.range_succ, List.foldl_append, List.map_append,
      ih buf (Nat.le_of_succ_le h)]
    simp only [List.foldl_cons, List.foldl_nil, List.map_cons, List.map_nil]
    have hdrop : buf.drop n = buf[n] :: buf.drop (n + 1) :=
      List.drop_eq_getElem_cons (by omega)
    rw [hdrop]
    have hA : ((List.range n).map f).length = n := by simp
    rw [set_append_cons_len _ _ _ _ _ hA]
    simp

/-- Staging the indices into a length-`k` buffer fills it exactly with the
index list. -/
theorem setfold_full (f : Nat → Nat) (k : Nat) (buf : List Nat)
    (h : buf.length = k) :
    (List.range k).foldl (fun l i => l.set i (f i)) buf = (List.range k).map f := by
  rw [setfold_range f k buf (le_of_eq h.symm), ← h, List.drop_length,
    List.append_nil]

/-! ### Characterizations of the operations in terms of the index list -/

theorem Test_fst_eq (c : CountingBloomFilter) (data : List Nat) :
    (Test c data).1 = (indices c data).all fun j => !(c.buckets.Get j == 0) := by
  unfold Test indices
  rw [List.all_map]
  rfl

theorem Test_snd_eq (c : CountingBloomFilter) (data : List Nat) :
    (Test c data).2 = c := rfl

theorem Add_buckets_eq (c : CountingBloomFilter) (data : List Nat) :
    (Add c data).buckets = incFold c.buckets (indices c data) := by
  unfold Add incFold indices
  rw [List.foldl_map]

theorem Add_eq (c : CountingBloomFilter) (data : List Nat) :
    Add c data = { c with buckets := incFold c.buckets (indices c data)
                          count := (c.count + 1) % 2 ^ 64 } := by
  rw [← Add_buckets_eq]
  rfl

theorem TestAndAdd_eq (c : CountingBloomFilter) (data : List Nat)
    (hb : ∀ v ∈ c.buckets.data, v ≤ c.buckets.maxVal) :
    TestAndAdd c data
      = ((indices c data).all (fun j => !(c.buckets.Get j == 0)), Add c data) := by
  unfold TestAndAdd
  have hmap :
      (List.range c.k).foldl
        (fun (acc : Bool × Buckets) i =>
          (acc.1 && !(acc.2.Get (bucketIdx (hashKernel c data).1 (hashKernel c data).2 i c.m) == 0),
            acc.2.Increment (bucketIdx (hashKernel c data).1 (hashKernel c data).2 i c.m) 1))
        (true, c.buckets)
      = (indices c data).foldl
          (fun (acc : Bool × Buckets) idx =>
            (acc.1 && !(acc.2.Get idx == 0), acc.2.Increment idx 1))
          (true, c.buckets) := by
    unfold indices
    rw [List.foldl_map]
  rw [hmap]
  have key : ∀ (L : List Nat) (mb : Bool) (bk : Buckets),
      (∀ v ∈ bk.data, v ≤ bk.maxVal) →
      L.foldl (fun (acc : Bool × Buckets) idx =>
          (acc.1 && !(acc.2.Get idx == 0), acc.2.Increment idx 1)) (mb, bk)
        = (mb && L.all (fun idx => !(bk.Get idx == 0)), incFold bk L) := by
    intro L
    induction L with
    | nil => intro mb bk _; simp [incFold]
    | cons a t ih =>
      intro mb bk hbk
      rw [List.foldl_cons, ih _ _ (bk.bounds_increment a 1 hbk)]
      by_cases h0 : bk.Get a = 0
      · simp [h0, incFold]
      · have hcong : ∀ j ∈ t,
            (!((bk.Increment a 1).Get j == 0)) = (!(bk.Get j == 0)) := by
          intro j _
          by_cases hj : j = a
          · subst hj
            have h1 := bk.get_increment_one_ne_zero j hbk h0
            simp [h0, h1]
          · rw [bk.get_increment_ne _ _ _ hj]
        rw [allCongr hcong]
        simp [h0, Bool.and_assoc, incFold]
  rw [key _ _ _ hb, Add_eq]
  simp

theorem TestAndRemoveStage_eq (c : CountingBloomFilter) (data : List Nat)
    (hbuf : c.indexBuffer.length = c.k) :
    TestAndRemoveStage c data
      = ((indices c data).all (fun j => !(c.buckets.Get j == 0)), indices c data) := by
  unfold TestAndRemoveStage
  rw [foldl_and_pair (List.range c.k)
    (fun i => !(c.buckets.Get (bucketIdx (hashKernel c data).1 (hashKernel c data).2 i c.m) == 0))
    (fun (l : List Nat) i => l.set i (bucketIdx (hashKernel c data).1 (hashKernel c data).2 i c.m))
    true c.indexBuffer]
  rw [setfold_full _ c.k c.indexBuffer hbuf]
  have hall : ((List.range c.k).all fun i =>
      !(c.buckets.Get (bucketIdx (hashKernel c data).1 (hashKernel c data).2 i c.m) == 0))
      = (indices c data).all fun j => !(c.buckets.Get j == 0) := by
    unfold indices
    rw [List.all_map]
    rfl
  rw [hall]
  rfl

theorem TestAndRemove_eq (c : CountingBloomFilter) (data : List Nat)
    (hbuf : c.indexBuffer.length = c.k) :
    TestAndRemove c data
      = if (indices c data).all (fun j => !(c.buckets.Get j == 0)) then
          (true,
            { c with
              buckets := decFold c.buckets (indices c data)
              count := (c.count + (2 ^ 64 - 1)) % 2 ^ 64
              indexBuffer := indices c data })
        else (false, { c with indexBuffer := indices c data }) := by
  unfold TestAndRemove
  rw [TestAndRemoveStage_eq c data hbuf]
  rfl

/-! ### Preservation lemmas -/

theorem indices_Add (c : CountingBloomFilter) (d x : List Nat) :
    indices (Add c d) x = indices c x := rfl

theorem indices_lt (c : CountingBloomFilter) (d : List Nat) (hm : 0 < c.m) :
    ∀ j ∈ indices c d, j < c.m := by
  intro j hj
  unfold indices at hj
  rcases List.mem_map.mp hj with ⟨i, _, hi⟩
  rw [← hi]
  exact Nat.mod_lt _ hm

theorem WellFormed_Add (c : CountingBloomFilter) (d : List Nat)
    (h : WellFormed c) : WellFormed (Add c d) := by
  obtain ⟨h1, h2, h3, h4, h5⟩ := h
  refine ⟨?_, h2, h3, ?_, ?_⟩
  · rw [Add_buckets_eq]
    unfold incFold
    show ((indices c d).foldl _ c.buckets).data.length = _
    rw [← incFold, length_incFold]
    exact h1
  · rw [Add_buckets_eq]
    exact bounds_incFold c.buckets (indices c d) h4
  · exact Nat.mod_lt _ (by norm_num)

/-- The run of a sequence of `Add` calls. -/
def runAdds (c : CountingBloomFilter) (ds : List (List Nat)) : CountingBloomFilter :=
  ds.foldl Add c

theorem WellFormed_runAdds (c : CountingBloomFilter) (ds : List (List Nat))
    (h : WellFormed c) : WellFormed (runAdds c ds) := by
  induction ds generalizing c with
  | nil => exact h
  | cons d ds ih =>
    rw [runAdds, List.foldl_cons, ← runAdds]
    exact ih _ (WellFormed_Add c d h)

theorem indices_runAdds (c : CountingBloomFilter) (ds : List (List Nat))
    (x : List Nat) : indices (runAdds c ds) x = indices c x := by
  induction ds generalizing c with
  | nil => rfl
  | cons d ds ih =>
    rw [runAdds, List.foldl_cons, ← runAdds, ih]
    exact indices_Add c d x

theorem get_le_Add (c : CountingBloomFilter) (d : List Nat)
    (hb : ∀ v ∈ c.buckets.data, v ≤ c.buckets.maxVal) (j : Nat) :
    c.buckets.Get j ≤ (Add c d).buckets.Get j := by
  rw [Add_buckets_eq]
  exact get_le_incFold _ _ hb j

theorem get_pos_runAdds (c : CountingBloomFilter) (ds : List (List Nat))
    (hwf : WellFormed c) (j : Nat) (hj : 1 ≤ c.buckets.Get j) :
    1 ≤ (runAdds c ds).buckets.Get j := by
  induction ds generalizing c with
  | nil => exact hj
  | cons d ds ih =>
    rw [runAdds, List.foldl_cons, ← runAdds]
    exact ih _ (WellFormed_Add c d hwf) (le_trans hj (get_le_Add c d hwf.2.2.2.1 j))

/-! ### Saturation instrumentation -/

/-- Whether some increment performed by `Add c data` saturates: an increment
saturates when the bucket it targets already holds the maximal value
`2 ^ b - 1` at the moment of the increment. -/
def addSaturates (c : CountingBloomFilter) (data : List Nat) : Bool :=
  ((List.range c.k).foldl
    (fun (acc : Bool × Buckets) i =>
      (acc.1 || decide (acc.2.maxVal ≤
          acc.2.Get (bucketIdx (hashKernel c data).1 (hashKernel c data).2 i c.m)),
        acc.2.Increment (bucketIdx (hashKernel c data).1 (hashKernel c data).2 i c.m) 1))
    (false, c.buckets)).1

/-- Whether a whole sequence of `Add` calls is saturation-free. -/
def satFreeRun (c : CountingBloomFilter) : List (List Nat) → Bool
  | [] => true
  | d :: ds => !(addSaturates c d) && satFreeRun (Add c d) ds

theorem satFold_fst_sticky (L : List Nat) (bk : Buckets) :
    (L.foldl
      (fun (acc : Bool × Buckets) i =>
        (acc.1 || decide (acc.2.maxVal ≤ acc.2.Get i), acc.2.Increment i 1))
      (true, bk)).1 = true := by
  induction L generalizing bk with
  | nil => rfl
  | cons a t ih => simpa using ih (bk.Increment a 1)

theorem satFold_fst_false (L : List Nat) (b : Bool) (bk : Buckets)
    (h : (L.foldl
      (fun (acc : Bool × Buckets) i =>
        (acc.1 || decide (acc.2.maxVal ≤ acc.2.Get i), acc.2.Increment i 1))
      (b, bk)).1 = false) : b = false := by
  cases b with
  | false => rfl
  | true => rw [satFold_fst_sticky] at h; exact absurd h (by simp)

theorem get_incFold_pos (L : List Nat) (bk : Buckets)
    (hlen : ∀ i ∈ L, i < bk.data.length)
    (hb : ∀ v ∈ bk.data, v ≤ bk.maxVal)
    (hsat : (L.foldl
      (fun (acc : Bool × Buckets) i =>
        (acc.1 || decide (acc.2.maxVal ≤ acc.2.Get i), acc.2.Increment i 1))
      (false, bk)).1 = false) :
    ∀ j ∈ L, 1 ≤ (incFold bk L).Get j := by
  induction L generalizing bk with
  | nil => intro j hj; exact absurd hj (by simp)
  | cons a t ih =>
    rw [List.foldl_cons] at hsat
    have hstep : (false || decide (bk.maxVal ≤ bk.Get a)) = false :=
      satFold_fst_false t _ _ hsat
    have hlt : bk.Get a < bk.maxVal := by
      simp at hstep
      omega
    have ha : a < bk.data.length := hlen a (by simp)
    have hget : (bk.Increment a 1).Get a = bk.Get a + 1 :=
      bk.get_increment_self_of_lt a ha hlt
    have hb' := bk.bounds_increment a 1 hb
    have hlen' : ∀ i ∈ t, i < (bk.Increment a 1).data.length := by
      intro i hi
      rw [Buckets.length_increment]
      exact hlen i (by simp [hi])
    have hsat' : (t.foldl
        (fun (acc : Bool × Buckets) i =>
          (acc.1 || decide (acc.2.maxVal ≤ acc.2.Get i), acc.2.Increment i 1))
        (false, bk.Increment a 1)).1 = false := by
      rw [hstep] at hsat
      exact hsat
    intro j hj
    rw [incFold, List.foldl_cons, ← incFold]
    rcases List.mem_cons.mp hj with h | h
    · subst h
      have h1 : 1 ≤ (bk.Increment j 1).Get j := by rw [hget]; omega
      exact le_trans h1 (get_le_incFold _ t hb' j)
    · exact ih _ hlen' hb' hsat' j h

theorem addSaturates_indices (c : CountingBloomFilter) (d : List Nat) :
    addSaturates c d = ((indices c d).foldl
      (fun (acc : Bool × Buckets) i =>
        (acc.1 || decide (acc.2.maxVal ≤ acc.2.Get i), acc.2.Increment i 1))
      (false, c.buckets)).1 := by
  unfold addSaturates indices
  rw [List.foldl_map]

theorem add_get_pos (c : CountingBloomFilter) (d : List Nat)
    (hwf : WellFormed c) (hsat : addSaturates c d = false) :
    ∀ j ∈ indices c d, 1 ≤ (Add c d).buckets.Get j := by
  rw [addSaturates_indices] at hsat
  intro j hj
  rw [Add_buckets_eq]
  refine get_incFold_pos (indices c d) c.buckets ?_ hwf.2.2.2.1 hsat j hj
  intro i hi
  rw [hwf.1]
  exact indices_lt c d hwf.2.2.1 i hi

/-! ### A small concrete filter used by the witnesses (3 four-bit buckets,
2 hash rounds, FNV-1 kernel — the shape `NewCountingBloomFilter 1 4 (1/4)`
produces). -/

def witnessFilter : CountingBloomFilter :=
  { buckets := { data := [0, 0, 0], bucketWidth := 4 }
    hash := fnv64
    m := 3
    k := 2
    b := 4
    count := 0
    indexBuffer := [0, 0] }

/-! ### Claim C1 -/

/-- C1: for every finite sequence of Add-only operations in which no counter
saturated, every element added in the sequence tests as a member afterwards
(`Test` returns true). -/
theorem c1_addOnly_no_false_negatives (c : CountingBloomFilter)
    (ds : List (List Nat)) (x : List Nat) (hwf : WellFormed c)
    (hsf : satFreeRun c ds = true) (hx : x ∈ ds) :
    (Test (runAdds c ds) x).1 = true := by
  induction ds generalizing c with
  | nil => exact absurd hx (by simp)
  | cons d ds ih =>
    rw [runAdds, List.foldl_cons, ← runAdds]
    simp only [satFreeRun, Bool.and_eq_true] at hsf
    rcases List.mem_cons.mp hx with h | h
    · subst h
      rw [Test_fst_eq, indices_runAdds, indices_Add, List.all_eq_true]
      intro j hj
      have hsat : addSaturates c x = false := by
        have := hsf.1
        simpa using this
      have h1 : 1 ≤ (Add c x).buckets.Get j := add_get_pos c x hwf hsat j hj
      have h2 : 1 ≤ (runAdds (Add c x) ds).buckets.Get j :=
        get_pos_runAdds (Add c x) ds (WellFormed_Add c x hwf) j h1
      simp
      omega
    · exact ih (Add c d) (WellFormed_Add c d hwf) hsf.2 h

/-- Witness for C1 at a concrete input: a well-formed fresh filter, the
saturation-free sequence that adds the bytes of `"a"`, after which testing
`"a"` yields true. -/
theorem c1_witness :
    WellFormed witnessFilter ∧ satFreeRun witnessFilter [[97]] = true ∧
      (Test (runAdds witnessFilter [[97]]) [97]).1 = true :=
  ⟨by decide, by decide,
    c1_addOnly_no_false_negatives witnessFilter [[97]] [97] (by decide) (by decide)
      (by decide)⟩

/-! ### Claim C2 -/

/-- C2: if `TestAndRemove` returns false, the filter's buckets and count are
unchanged — no partial decrement occurs. -/
theorem c2_testAndRemove_atomic (c : CountingBloomFilter) (data : List Nat)
    (h : (TestAndRemove c data).1 = false) :
    (TestAndRemove c data).2.buckets = c.buckets ∧
      (TestAndRemove c data).2.count = c.count := by
  unfold TestAndRemove at h ⊢
  by_cases hr : (TestAndRemoveStage c data).1
  · simp [hr] at h
  · simp [hr]

/-- Witness for C2 at a concrete input: removing `"a"` from the fresh filter
fails and leaves buckets and count unchanged. -/
theorem c2_witness :
    (TestAndRemove witnessFilter [97]).1 = false ∧
      ((TestAndRemove witnessFilter [97]).2.buckets = witnessFilter.buckets ∧
        (TestAndRemove witnessFilter [97]).2.count = witnessFilter.count) :=
  ⟨by decide, c2_testAndRemove_atomic witnessFilter [97] (by decide)⟩

/-! ### Claim C7 -/

/-- C7: `Test` returns true exactly when all `k` derived buckets are
non-zero, and it leaves the filter state unchanged. -/
theorem c7_test_characterization (c : CountingBloomFilter) (data : List Nat) :
    ((Test c data).1 = true ↔ ∀ j ∈ indices c data, c.buckets.Get j ≠ 0) ∧
      (Test c data).2 = c := by
  refine ⟨?_, rfl⟩
  rw [Test_fst_eq, List.all_eq_true]
  constructor
  · intro h j hj
    have := h j hj
    simpa using this
  · intro h j hj
    simpa using h j hj

/-- Witness for C7 at a concrete input. -/
theorem c7_witness :
    ((Test witnessFilter [97]).1 = true ↔
        ∀ j ∈ indices witnessFilter [97], witnessFilter.buckets.Get j ≠ 0) ∧
      (Test witnessFilter [97]).2 = witnessFilter :=
  c7_test_characterization witnessFilter [97]

/-! ### Claim C8 -/

/-- Every constructed filter has at least one hash round (`k ≥ 1`), since the
spec's sizing is `k = max(1, …)`. -/
theorem newFilter_k_pos (n : Nat) (b : Nat) (p : ℝ) :
    1 ≤ (NewCountingBloomFilter n b p).k :=
  le_max_left _ _

theorem get_reset (bk : Buckets) (j : Nat) : bk.Reset.Get j = 0 := by
  unfold Buckets.Reset Buckets.Get
  by_cases h : j < bk.data.length
  · rw [List.getD_eq_getElem _ _ (by simpa using h)]
    exact List.getElem_replicate ..
  · exact List.getD_eq_default _ _ (by simpa using le_of_not_lt h)

/-- C8: `Reset` is idempotent; after `Reset` the count is 0 and — for any
filter with at least one hash round, which every constructed filter has —
`Test` of every element returns false. -/
theorem c8_reset_idempotent (c : CountingBloomFilter) (x : List Nat)
    (hk : 1 ≤ c.k) :
    Reset (Reset c) = Reset c ∧ (Reset c).count = 0 ∧
      (Test (Reset c) x).1 = false := by
  refine ⟨?_, rfl, ?_⟩
  · unfold Reset Buckets.Reset
    simp
  · rw [Test_fst_eq]
    have hidx : bucketIdx (hashKernel (Reset c) x).1 (hashKernel (Reset c) x).2 0 (Reset c).m
        ∈ indices (Reset c) x := by
      unfold indices
      exact List.mem_map.mpr ⟨0, List.mem_range.mpr hk, rfl⟩
    refine List.all_eq_false.mpr ⟨_, hidx, ?_⟩
    show ¬(!((Reset c).buckets.Get _ == 0)) = true
    have : (Reset c).buckets.Get (bucketIdx (hashKernel (Reset c) x).1
        (hashKernel (Reset c) x).2 0 (Reset c).m) = 0 := get_reset _ _
    simp [this]

/-- Witness for C8 at a concrete input. -/
theorem c8_witness :
    Reset (Reset witnessFilter) = Reset witnessFilter ∧
      (Reset witnessFilter).count = 0 ∧
      (Test (Reset witnessFilter) [97]).1 = false :=
  c8_reset_idempotent witnessFilter [97] (by decide)

/-! ### Claim C3 -/

/-- C3: `TestAndAdd` returns the same boolean `Test` would return on the
same state, and leaves the filter in the state `Test` followed by `Add`
produces (`Test` does not change the state, so that is `Add` of `Test`'s
output state).  The bucket-bounds hypothesis holds on every reachable
state. -/
theorem c3_testAndAdd_consistency (c : CountingBloomFilter) (data : List Nat)
    (hb : ∀ v ∈ c.buckets.data, v ≤ c.buckets.maxVal) :
    (TestAndAdd c data).1 = (Test c data).1 ∧
      (TestAndAdd c data).2 = Add (Test c data).2 data := by
  rw [TestAndAdd_eq c data hb, Test_snd_eq]
  exact ⟨(Test_fst_eq c data).symm, rfl⟩

/-- Witness for C3 at a concrete input. -/
theorem c3_witness :
    (∀ v ∈ witnessFilter.buckets.data, v ≤ witnessFilter.buckets.maxVal) ∧
      ((TestAndAdd witnessFilter [97]).1 = (Test witnessFilter [97]).1 ∧
        (TestAndAdd witnessFilter [97]).2 = Add (Test witnessFilter [97]).2 [97]) :=
  ⟨by decide, c3_testAndAdd_consistency witnessFilter [97] (by decide)⟩

/-! ### Claim C4 -/

/-- A filter with its single bucket for `[0]` already saturated
(`b = 1`, so the maximal counter value is 1), on which the claimed
Add/Remove inverse fails. -/
def c4Filter : CountingBloomFilter :=
  { buckets := { data := [1, 0], bucketWidth := 1 }
    hash := fun d => if d = [0] then 0 else 1
    m := 2
    k := 1
    b := 1
    count := 3
    indexBuffer := [0] }

/-- In `c4Filter` no element other than `[0]` covers all of `[0]`'s buckets:
every other element hashes to bucket 1, while `[0]` uses bucket 0. -/
theorem c4Filter_no_share :
    ∀ y : List Nat, y ≠ [0] → ¬ (indices c4Filter [0] ⊆ indices c4Filter y) := by
  intro y hy
  have hh : c4Filter.hash y = 1 := by simp [c4Filter, hy]
  have h1 : indices c4Filter y = [1] := by
    simp [indices, hashKernel, bucketIdx, hh]
    rfl
  have h0 : indices c4Filter [0] = [0] := by decide
  rw [h0, h1]
  decide

/-- Counterexample to C4 as stated: in the well-formed filter `c4Filter`,
whose element `[0]` shares its buckets with no other element, `Add [0]`
followed by `TestAndRemove [0]` returns true but does **not** restore the
touched bucket: the bucket was saturated at `2 ^ b - 1 = 1`, so the `Add`
was absorbed and the remove drives the bucket to 0 instead of back to 1. -/
theorem c4_counterexample :
    WellFormed c4Filter ∧
      (∀ y : List Nat, y ≠ [0] → ¬ (indices c4Filter [0] ⊆ indices c4Filter y)) ∧
      (TestAndRemove (Add c4Filter [0]) [0]).1 = true ∧
      c4Filter.buckets.Get 0 = 1 ∧
      (TestAndRemove (Add c4Filter [0]) [0]).2.buckets.Get 0 = 0 :=
  ⟨by decide, c4Filter_no_share, by decide, by decide, by decide⟩

/-- C4 amended: the inverse law holds provided additionally no bucket of `x`
saturates during the `Add` — each of `x`'s buckets has headroom for as many
increments as `x` maps onto it. -/
theorem c4_add_remove_inverse (c : CountingBloomFilter) (x : List Nat)
    (hwf : WellFormed c)
    (_hshare : ∀ y : List Nat, y ≠ x → ¬ (indices c x ⊆ indices c y))
    (hroom : ∀ j ∈ indices c x,
      c.buckets.Get j + (indices c x).count j ≤ c.buckets.maxVal) :
    (TestAndRemove (Add c x) x).1 = true ∧
      (∀ j, (TestAndRemove (Add c x) x).2.buckets.Get j = c.buckets.Get j) ∧
      (TestAndRemove (Add c x) x).2.count = c.count := by
  have hlen : ∀ i ∈ indices c x, i < c.buckets.data.length := by
    intro i hi
    rw [hwf.1]
    exact indices_lt c x hwf.2.2.1 i hi
  have hInc : ∀ j, (Add c x).buckets.Get j
      = c.buckets.Get j + (indices c x).count j := by
    intro j
    rw [Add_buckets_eq]
    exact get_incFold_count c.buckets (indices c x) hlen hroom j
  have hbuf1 : (Add c x).indexBuffer.length = (Add c x).k := hwf.2.1
  have hall : (indices c x).all
      (fun j => !((Add c x).buckets.Get j == 0)) = true := by
    rw [List.all_eq_true]
    intro j hj
    have hc : 1 ≤ (indices c x).count j := List.count_pos_iff.mpr hj
    have := hInc j
    simp
    omega
  rw [TestAndRemove_eq (Add c x) x hbuf1, indices_Add, hall]
  rw [if_pos rfl]
  refine ⟨rfl, ?_, ?_⟩
  · intro j
    have hbounds1 : ∀ v ∈ (Add c x).buckets.data,
        v ≤ (Add c x).buckets.maxVal :=
      (WellFormed_Add c x hwf).2.2.2.1
    have hge : ∀ j' ∈ indices c x,
        (indices c x).count j' ≤ (Add c x).buckets.Get j' := by
      intro j' hj'
      rw [hInc j']
      omega
    have := get_decFold_count (Add c x).buckets (indices c x) hbounds1 hge j
    show (decFold (Add c x).buckets (indices c x)).Get j = _
    rw [this, hInc j]
    omega
  · show ((c.count + 1) % 2 ^ 64 + (2 ^ 64 - 1)) % 2 ^ 64 = c.count
    have h5 : c.count < 2 ^ 64 := hwf.2.2.2.2
    omega

/-- A well-formed, unsaturated variant of `c4Filter` used to witness the
amended C4. -/
def c4WitnessFilter : CountingBloomFilter :=
  { buckets := { data := [0, 0], bucketWidth := 4 }
    hash := fun d => if d = [0] then 0 else 1
    m := 2
    k := 1
    b := 4
    count := 5
    indexBuffer := [0] }

/-- In `c4WitnessFilter` no element other than `[0]` covers `[0]`'s
buckets. -/
theorem c4WitnessFilter_no_share :
    ∀ y : List Nat, y ≠ [0] →
      ¬ (indices c4WitnessFilter [0] ⊆ indices c4WitnessFilter y) := by
  intro y hy
  have hh : c4WitnessFilter.hash y = 1 := by simp [c4WitnessFilter, hy]
  have h1 : indices c4WitnessFilter y = [1] := by
    simp [indices, hashKernel, bucketIdx, hh]
    rfl
  have h0 : indices c4WitnessFilter [0] = [0] := by decide
  rw [h0, h1]
  decide

/-- Witness for the amended C4 at a concrete input. -/
theorem c4_witness :
    WellFormed c4WitnessFilter ∧
      (∀ j ∈ indices c4WitnessFilter [0],
        c4WitnessFilter.buckets.Get j + (indices c4WitnessFilter [0]).count j
          ≤ c4WitnessFilter.buckets.maxVal) ∧
      ((TestAndRemove (Add c4WitnessFilter [0]) [0]).1 = true ∧
        (∀ j, (TestAndRemove (Add c4WitnessFilter [0]) [0]).2.buckets.Get j
          = c4WitnessFilter.buckets.Get j) ∧
        (TestAndRemove (Add c4WitnessFilter [0]) [0]).2.count
          = c4WitnessFilter.count) :=
  ⟨by decide, by decide,
    c4_add_remove_inverse c4WitnessFilter [0] (by decide) c4WitnessFilter_no_share
      (by decide)⟩

/-! ### Operation sequences (for the count invariant) -/

/-- The non-`Reset` public operations of the filter. -/
inductive Op where
  | add (data : List Nat)
  | testAndAdd (data : List Nat)
  | testAndRemove (data : List Nat)
  | test (data : List Nat)

/-- State transition of one operation. -/
def applyOp (c : CountingBloomFilter) : Op → CountingBloomFilter
  | Op.add d => Add c d
  | Op.testAndAdd d => (TestAndAdd c d).2
  | Op.testAndRemove d => (TestAndRemove c d).2
  | Op.test d => (Test c d).2

/-- Run a sequence of operations. -/
def run (c : CountingBloomFilter) (ops : List Op) : CountingBloomFilter :=
  ops.foldl applyOp c

/-- The number of `Add` and `TestAndAdd` calls in a sequence. -/
def addsCount (ops : List Op) : Nat :=
  ops.countP fun op =>
    match op with
    | Op.add _ => true
    | Op.testAndAdd _ => true
    | _ => false

/-- The number of `TestAndRemove` calls that return true along the run. -/
def succRemoves (c : CountingBloomFilter) : List Op → Nat
  | [] => 0
  | op :: ops =>
    (match op with
      | Op.testAndRemove d => if (TestAndRemove c d).1 then 1 else 0
      | _ => 0) + succRemoves (applyOp c op) ops

theorem TestAndRemove_count (c : CountingBloomFilter) (d : List Nat) :
    (TestAndRemove c d).2.count
      = if (TestAndRemove c d).1 then (c.count + (2 ^ 64 - 1)) % 2 ^ 64
        else c.count := by
  unfold TestAndRemove
  by_cases h : (TestAndRemoveStage c d).1 <;> simp [h]

/-! ### Claim C5 -/

/-- C5 amended: after any sequence of `Add`/`Test`/`TestAndAdd`/
`TestAndRemove` calls, the count is congruent modulo `2 ^ 64` (the Go `uint`
width) to its initial value plus the number of `Add`/`TestAndAdd` calls minus
the number of successful `TestAndRemove` calls.  (The unreduced equality
claimed by the spec fails: successful removals can exceed additions — see the
counterexample — and then the unsigned count wraps.) -/
theorem c5_count_invariant (c : CountingBloomFilter) (ops : List Op) :
    ((run c ops).count : ZMod (2 ^ 64))
      = (c.count : ZMod (2 ^ 64)) + (addsCount ops : ZMod (2 ^ 64))
        - (succRemoves c ops : ZMod (2 ^ 64)) := by
  induction ops generalizing c with
  | nil => simp [run, addsCount, succRemoves]
  | cons op ops ih =>
    rw [run, List.foldl_cons, ← run, ih (applyOp c op)]
    have hm1 : ((2 ^ 64 - 1 : Nat) : ZMod (2 ^ 64)) = -1 := by
      rw [Nat.cast_sub (by norm_num)]
      rw [ZMod.natCast_self]
      norm_num
    cases op with
    | add d =>
      have hc : (applyOp c (Op.add d)).count = (c.count + 1) % 2 ^ 64 := rfl
      have hadds : addsCount (Op.add d :: ops) = 1 + addsCount ops := by
        unfold addsCount
        rw [List.countP_cons]
        simp [Nat.add_comm]
      have hrem : succRemoves c (Op.add d :: ops)
          = succRemoves (applyOp c (Op.add d)) ops := by
        show 0 + _ = _
        rw [Nat.zero_add]
      rw [hc, hadds, hrem, ZMod.natCast_mod]
      push_cast
      ring
    | testAndAdd d =>
      have hc : (applyOp c (Op.testAndAdd d)).count = (c.count + 1) % 2 ^ 64 := rfl
      have hadds : addsCount (Op.testAndAdd d :: ops) = 1 + addsCount ops := by
        unfold addsCount
        rw [List.countP_cons]
        simp [Nat.add_comm]
      have hrem : succRemoves c (Op.testAndAdd d :: ops)
          = succRemoves (applyOp c (Op.testAndAdd d)) ops := by
        show 0 + _ = _
        rw [Nat.zero_add]
      rw [hc, hadds, hrem, ZMod.natCast_mod]
      push_cast
      ring
    | test d =>
      have hc : (applyOp c (Op.test d)).count = c.count := rfl
      have hadds : addsCount (Op.test d :: ops) = addsCount ops := by
        unfold addsCount
        rw [List.countP_cons]
        simp
      have hrem : succRemoves c (Op.test d :: ops)
          = succRemoves (applyOp c (Op.test d)) ops := by
        show 0 + _ = _
        rw [Nat.zero_add]
      rw [hc, hadds, hrem]
    | testAndRemove d =>
      have hadds : addsCount (Op.testAndRemove d :: ops) = addsCount ops := by
        unfold addsCount
        rw [List.countP_cons]
        simp
      have hrem : succRemoves c (Op.testAndRemove d :: ops)
          = (if (TestAndRemove c d).1 then 1 else 0)
            + succRemoves (applyOp c (Op.testAndRemove d)) ops := rfl
      have hc : (applyOp c (Op.testAndRemove d)).count
          = if (TestAndRemove c d).1 then (c.count + (2 ^ 64 - 1)) % 2 ^ 64
            else c.count := TestAndRemove_count c d
      rw [hadds, hrem, hc]
      by_cases h : (TestAndRemove c d).1
      · rw [if_pos h, if_pos h, ZMod.natCast_mod, Nat.cast_add, hm1]
        push_cast
        ring
      · rw [if_neg h, if_neg h]
        push_cast
        ring

/-! ### The constructed filter `NewCountingBloomFilter 1 4 (1/4)` -/

theorem log_two_pos : (0 : ℝ) < Real.log 2 := Real.log_pos (by norm_num)

theorem log_quarter : Real.log ((1 : ℝ) / 4) = -(2 * Real.log 2) := by
  rw [one_div, Real.log_inv, show (4 : ℝ) = 2 ^ 2 by norm_num, Real.log_pow]
  push_cast
  ring

theorem OptimalM_one_quarter : OptimalM 1 ((1 : ℝ) / 4) = 3 := by
  unfold OptimalM
  have h2 : Real.log 2 ≠ 0 := ne_of_gt log_two_pos
  have hx : -(((1 : Nat) : ℝ) * Real.log ((1 : ℝ) / 4)) / (Real.log 2) ^ 2
      = 2 / Real.log 2 := by
    rw [log_quarter, Nat.cast_one, one_mul, neg_neg, pow_two]
    rw [mul_comm (Real.log 2) (Real.log 2)]
    field_simp
    ring
  rw [hx, Nat.ceil_eq_iff (by norm_num : (3 : Nat) ≠ 0)]
  have hub := Real.log_two_lt_d9
  have hlb := Real.log_two_gt_d9
  constructor
  · show ((3 - 1 : Nat) : ℝ) < 2 / Real.log 2
    rw [show ((3 - 1 : Nat) : ℝ) = (2 : ℝ) by norm_num, lt_div_iff₀ log_two_pos]
    nlinarith
  · show 2 / Real.log 2 ≤ ((3 : Nat) : ℝ)
    rw [show ((3 : Nat) : ℝ) = (3 : ℝ) by norm_num, div_le_iff₀ log_two_pos]
    nlinarith

theorem OptimalK_one_quarter : OptimalK ((1 : ℝ) / 4) = 2 := by
  unfold OptimalK
  have h2 : Real.log 2 ≠ 0 := ne_of_gt log_two_pos
  have hx : -Real.log ((1 : ℝ) / 4) / Real.log 2 = 2 := by
    rw [log_quarter, neg_neg]
    field_simp
  rw [hx, show (2 : ℝ) = ((2 : ℤ) : ℝ) by norm_num, round_intCast]
  rfl

/-- The freshly constructed filter `NewCountingBloomFilter 1 4 (1/4)` is the
concrete filter with 3 empty four-bit buckets and 2 hash rounds. -/
theorem newCBF_eq_witnessFilter :
    NewCountingBloomFilter 1 4 ((1 : ℝ) / 4) = witnessFilter := by
  unfold NewCountingBloomFilter witnessFilter NewBuckets
  rw [OptimalM_one_quarter, OptimalK_one_quarter]
  rfl

/-- The operation sequence refuting C5 as stated: one `Add` of the bytes of
`"a"`, then `TestAndRemove` of `"ac"` and of `"aa"` — two distinct elements
that were never added but are false positives (each maps both hash rounds
onto a single bucket that `"a"`'s add made non-zero). -/
def cexOps : List Op :=
  [Op.add [97], Op.testAndRemove [97, 99], Op.testAndRemove [97, 97]]

/-- Counterexample to C5 as stated: from the freshly constructed filter
`NewCountingBloomFilter 1 4 (1/4)`, running `cexOps` performs 1 add and 2
successful removals, after which `Count()` is `2 ^ 64 - 1` — not the claimed
"adds minus successful removals" (= −1). -/
theorem c5_counterexample :
    addsCount cexOps = 1 ∧
      succRemoves (NewCountingBloomFilter 1 4 ((1 : ℝ) / 4)) cexOps = 2 ∧
      (run (NewCountingBloomFilter 1 4 ((1 : ℝ) / 4)) cexOps).count = 2 ^ 64 - 1 ∧
      ¬ (((run (NewCountingBloomFilter 1 4 ((1 : ℝ) / 4)) cexOps).count : ℤ)
          = (addsCount cexOps : ℤ)
            - (succRemoves (NewCountingBloomFilter 1 4 ((1 : ℝ) / 4)) cexOps : ℤ)) := by
  rw [newCBF_eq_witnessFilter]
  have h1 : addsCount cexOps = 1 := by decide
  have h2 : succRemoves witnessFilter cexOps = 2 := by decide
  have h3 : (run witnessFilter cexOps).count = 2 ^ 64 - 1 := by decide
  refine ⟨h1, h2, h3, ?_⟩
  rw [h1, h2, h3]
  intro h
  omega

/-! ### Claim C9 -/

theorem OptimalM_zero (p : ℝ) : OptimalM 0 p = 0 := by
  unfold OptimalM
  simp

/-- Counterexample to C9 as stated: constructing with `capacityN = 0` (and
the valid rate 1/2) does not fail fast — the constructor has no error path;
it returns a degenerate filter with `m = 0` and no buckets, which misbehaves
later (in Go, every operation mods by `m`, a division by zero). -/
theorem c9_counterexample :
    (NewCountingBloomFilter 0 4 ((1 : ℝ) / 2)).m = 0 ∧
      (NewCountingBloomFilter 0 4 ((1 : ℝ) / 2)).buckets.data = [] := by
  unfold NewCountingBloomFilter NewBuckets
  rw [OptimalM_zero]
  exact ⟨rfl, rfl⟩

/-- C9 amended: construction performs no validation and cannot signal: for
`capacityN = 0` it returns, for every false-positive rate, a degenerate
filter with `m = 0` and an empty bucket array instead of failing fast. -/
theorem c9_no_validation (b : Nat) (p : ℝ) :
    (NewCountingBloomFilter 0 b p).m = 0 ∧
      (NewCountingBloomFilter 0 b p).buckets.data = [] := by
  unfold NewCountingBloomFilter NewBuckets
  rw [OptimalM_zero]
  exact ⟨rfl, rfl⟩

/-! ### Claim C10 -/

/-- C10: the count is a 64-bit unsigned value decremented with no zero
guard.  From the freshly constructed filter `NewCountingBloomFilter 1 4
(1/4)`: after adding `"a"` and removing the false positive `"ac"`, `Count()`
is 0; removing the (distinct, never-added) false positive `"aa"` still
succeeds, and `Count()` wraps to `2 ^ 64 - 1`. -/
theorem c10_count_underflow_wrap :
    (run (NewCountingBloomFilter 1 4 ((1 : ℝ) / 4))
        [Op.add [97], Op.testAndRemove [97, 99]]).count = 0 ∧
      (TestAndRemove (run (NewCountingBloomFilter 1 4 ((1 : ℝ) / 4))
        [Op.add [97], Op.testAndRemove [97, 99]]) [97, 97]).1 = true ∧
      (TestAndRemove (run (NewCountingBloomFilter 1 4 ((1 : ℝ) / 4))
        [Op.add [97], Op.testAndRemove [97, 99]]) [97, 97]).2.count
        = 2 ^ 64 - 1 := by
  rw [newCBF_eq_witnessFilter]
  exact ⟨by decide, by decide, by decide⟩

/-! ### Claim C6 -/

/-- C6: every public operation computes one 64-bit digest, splits it into
32-bit halves `lower` and `upper` (which reconstruct the digest), accesses
buckets only at the `k` derived indices, and — for `k ≤ 2 ^ 32`, true of
every realistic filter — the round-`i` index is `(lower + upper·i) mod m`. -/
theorem c6_double_hashing (c : CountingBloomFilter) (data : List Nat)
    (hbuf : c.indexBuffer.length = c.k)
    (hb : ∀ v ∈ c.buckets.data, v ≤ c.buckets.maxVal)
    (hk : c.k ≤ 2 ^ 32) :
    ((hashKernel c data).1 < 2 ^ 32 ∧ (hashKernel c data).2 < 2 ^ 32 ∧
      (hashKernel c data).1 + 2 ^ 32 * (hashKernel c data).2
        = c.hash data % 2 ^ 64) ∧
      indices c data = (List.range c.k).map
        (fun i => ((hashKernel c data).1 + (hashKernel c data).2 * i) % c.m) ∧
      (Test c data).1 = ((indices c data).all fun j => !(c.buckets.Get j == 0)) ∧
      (Add c data).buckets = incFold c.buckets (indices c data) ∧
      TestAndAdd c data
        = ((indices c data).all (fun j => !(c.buckets.Get j == 0)), Add c data) ∧
      TestAndRemove c data
        = (if (indices c data).all (fun j => !(c.buckets.Get j == 0)) then
            (true,
              { c with
                buckets := decFold c.buckets (indices c data)
                count := (c.count + (2 ^ 64 - 1)) % 2 ^ 64
                indexBuffer := indices c data })
          else (false, { c with indexBuffer := indices c data })) := by
  have hlow : (hashKernel c data).1 < 2 ^ 32 :=
    Nat.mod_lt _ (by norm_num)
  have hs : c.hash data % 2 ^ 64 < 2 ^ 32 * 2 ^ 32 := by
    have h1 := Nat.mod_lt (c.hash data) (show 0 < 2 ^ 64 by norm_num)
    have h2 : (2 : Nat) ^ 32 * 2 ^ 32 = 2 ^ 64 := by norm_num
    omega
  have hup : (hashKernel c data).2 < 2 ^ 32 := Nat.div_lt_of_lt_mul hs
  refine ⟨⟨hlow, hup, Nat.mod_add_div _ _⟩, ?_, Test_fst_eq c data,
    Add_buckets_eq c data, TestAndAdd_eq c data hb, TestAndRemove_eq c data hbuf⟩
  unfold indices
  refine List.map_congr_left ?_
  intro i hi
  have hik : i < c.k := List.mem_range.mp hi
  unfold bucketIdx
  congr 1
  apply Nat.mod_eq_of_lt
  have hu : (hashKernel c data).2 ≤ 2 ^ 32 - 1 := by omega
  have hi32 : i ≤ 2 ^ 32 - 1 := by omega
  have hmul : (hashKernel c data).2 * i ≤ (2 ^ 32 - 1) * (2 ^ 32 - 1) :=
    Nat.mul_le_mul hu hi32
  have hnum : ((2 : Nat) ^ 32 - 1) * (2 ^ 32 - 1) = 2 ^ 64 - 2 ^ 33 + 1 := by
    norm_num
  omega

/-- Witness for C6 at a concrete input. -/
theorem c6_witness :
    witnessFilter.indexBuffer.length = witnessFilter.k ∧
      (∀ v ∈ witnessFilter.buckets.data, v ≤ witnessFilter.buckets.maxVal) ∧
      witnessFilter.k ≤ 2 ^ 32 ∧
      (((hashKernel witnessFilter [97]).1 < 2 ^ 32 ∧
          (hashKernel witnessFilter [97]).2 < 2 ^ 32 ∧
          (hashKernel witnessFilter [97]).1
              + 2 ^ 32 * (hashKernel witnessFilter [97]).2
            = witnessFilter.hash [97] % 2 ^ 64) ∧
        indices witnessFilter [97] = (List.range witnessFilter.k).map
          (fun i => ((hashKernel witnessFilter [97]).1
            + (hashKernel witnessFilter [97]).2 * i) % witnessFilter.m) ∧
        (Test witnessFilter [97]).1
          = ((indices witnessFilter [97]).all
              fun j => !(witnessFilter.buckets.Get j == 0)) ∧
        (Add witnessFilter [97]).buckets
          = incFold witnessFilter.buckets (indices witnessFilter [97]) ∧
        TestAndAdd witnessFilter [97]
          = ((indices witnessFilter [97]).all
              (fun j => !(witnessFilter.buckets.Get j == 0)),
            Add witnessFilter [97]) ∧
        TestAndRemove witnessFilter [97]
          = (if (indices witnessFilter [97]).all
                (fun j => !(witnessFilter.buckets.Get j == 0)) then
              (true,
                { witnessFilter with
                  buckets := decFold witnessFilter.buckets (indices witnessFilter [97])
                  count := (witnessFilter.count + (2 ^ 64 - 1)) % 2 ^ 64
                  indexBuffer := indices witnessFilter [97] })
            else
              (false,
                { witnessFilter with
                  indexBuffer := indices witnessFilter [97] }))) :=
  ⟨by decide, by decide, by decide,
    c6_double_hashing witnessFilter [97] (by decide) (by decide) (by decide)⟩

end Boom
